import Mathlib

/-!
Verification of the PII span-detection core of `anonymize_pdf.py`.

Texts are modelled as lists of Unicode codepoints (`List Nat`).  The
compiled regular expressions of the source are embedded as terms of an
inductive `RE` type together with a fuel-indexed backtracking matcher
`mfirst` in continuation-passing style, which mirrors the Python `re`
engine: alternatives are tried left to right, repetitions are greedy,
and `finditer` scans positions left to right, restarting after the end
of each match.  All recursion is structural in the fuel so that every
definition evaluates inside the kernel.
-/

set_option maxHeartbeats 4000000
set_option maxRecDepth 8000

namespace AnonPdf

/-- Codepoints of a string literal. -/
def s2c (s : String) : List Nat := s.data.map (fun c => c.toNat)

/-- Membership of a codepoint in an inclusive range. -/
def inR (lo hi c : Nat) : Bool := decide (lo ≤ c) && decide (c ≤ hi)

def isDigitC (c : Nat) : Bool := inR 48 57 c

def isUpperA (c : Nat) : Bool := inR 65 90 c

def isLowerA (c : Nat) : Bool := inR 97 122 c

/-- Latin-1/Latin-Extended letters (excluding the two multiplication signs),
the letter range that matters to the source's accent-aware patterns. -/
def isLatinExt (c : Nat) : Bool :=
  (inR 192 255 c && !(c == 215) && !(c == 247)) || inR 256 591 c

/-- Model of Python's `str.isalnum` on the relevant codepoints. -/
def isalnumC (c : Nat) : Bool := isDigitC c || isUpperA c || isLowerA c || isLatinExt c

/-- Model of `\s`. -/
def isSpaceC (c : Nat) : Bool :=
  c == 32 || c == 9 || c == 10 || c == 13 || c == 12 || c == 11

/-- Model of `\w`. -/
def isWordC (c : Nat) : Bool := isalnumC c || c == 95

/-- Model of Python's per-character `str.lower` on the Latin repertoire. -/
def lowerC (c : Nat) : Nat :=
  if isUpperA c || (inR 192 222 c && !(c == 215)) then c + 32 else c

def lowerStr (l : List Nat) : List Nat := l.map lowerC

/-- Model of Python's `str.isupper` on a single leading character. -/
def isUpperPy (c : Nat) : Bool :=
  isUpperA c || (inR 192 222 c && !(c == 215)) || inR 256 381 c

/-- Model of Python's `str.strip` (whitespace at both ends removed). -/
def strip (l : List Nat) : List Nat :=
  ((l.dropWhile isSpaceC).reverse.dropWhile isSpaceC).reverse

/-- `str.split()`: split on whitespace runs, dropping empty pieces. -/
def splitWsAux : List Nat → List Nat → List (List Nat)
  | [], acc => if acc.isEmpty then [] else [acc.reverse]
  | c :: cs, acc =>
    if isSpaceC c then
      (if acc.isEmpty then splitWsAux cs [] else acc.reverse :: splitWsAux cs [])
    else splitWsAux cs (c :: acc)

def splitWs (l : List Nat) : List (List Nat) := splitWsAux l []

/-! ### The regular-expression embedding -/

/-- Syntax of the regular expressions compiled by the source: character
classes, concatenation, ordered alternation, greedy star, lookahead,
single-character lookbehind, word boundary `\b`, end-of-text (for `$`). -/
inductive RE where
  | eps
  | eot
  | cls (p : Nat → Bool)
  | cat (a b : RE)
  | alt (a b : RE)
  | star (a : RE)
  | look (neg : Bool) (a : RE)
  | lookb1 (neg : Bool) (p : Nat → Bool)
  | wordB

/-- Character of `t` at offset `i`, if any. -/
def charAt (t : List Nat) (i : Nat) : Option Nat := (t.drop i).head?

/-- Is the character at offset `i` a word character? -/
def wordAt (t : List Nat) (i : Nat) : Bool :=
  match charAt t i with
  | some c => isWordC c
  | none => false

/-- Does the character immediately before offset `i` satisfy `p`? -/
def prevHolds (p : Nat → Bool) (t : List Nat) (i : Nat) : Bool :=
  match i with
  | 0 => false
  | j + 1 =>
    match charAt t j with
    | some c => p c
    | none => false

/-- Backtracking matcher in continuation-passing style.  `mfirst t fuel r i k`
attempts to match `r` in `t` starting at offset `i`; on a candidate end
offset `j` it calls the continuation `k j`, and backtracks (next
alternative, shorter greedy repetition) while `k` returns `none`.  This is
the preference order of the Python `re` engine.  The fuel bounds the
nesting depth; star iterations that consume no input are pruned, as in
Python. -/
def mfirst (t : List Nat) : Nat → RE → Nat → (Nat → Option Nat) → Option Nat
  | 0, _, _, _ => none
  | fuel + 1, r, i, k =>
    match r with
    | .eps => k i
    | .eot => if i == t.length then k i else none
    | .cls p =>
      match charAt t i with
      | some c => if p c then k (i + 1) else none
      | none => none
    | .cat a b => mfirst t fuel a i (fun j => mfirst t fuel b j k)
    | .alt a b => (mfirst t fuel a i k).orElse (fun _ => mfirst t fuel b i k)
    | .star a =>
      (mfirst t fuel a i
        (fun j => if j == i then none else mfirst t fuel (.star a) j k)).orElse
        (fun _ => k i)
    | .look neg a => if (mfirst t fuel a i some).isSome == neg then none else k i
    | .lookb1 neg p => if (prevHolds p t i) == neg then none else k i
    | .wordB => if (prevHolds isWordC t i) != wordAt t i then k i else none

/-- Can the expression match the empty string?  (Over-approximation used
only in one direction: `nullableRE r = false` guarantees every match
consumes at least one character.) -/
def nullableRE : RE → Bool
  | .eps => true
  | .eot => true
  | .cls _ => false
  | .cat a b => nullableRE a && nullableRE b
  | .alt a b => nullableRE a || nullableRE b
  | .star _ => true
  | .look _ _ => true
  | .lookb1 _ _ => true
  | .wordB => true

/-- Fuel that is comfortably larger than any nesting depth the source's
patterns can reach on `t`. -/
def mFuel (t : List Nat) : Nat := 16 * t.length + 512

/-- One step of `finditer`: scan offsets left to right, emit each match
`(start, end)`, resume after the match (or one step further on an empty
match). -/
def findFrom (t : List Nat) (r : RE) : Nat → Nat → List (Nat × Nat)
  | 0, _ => []
  | fuel + 1, i =>
    if i ≤ t.length then
      match mfirst t (mFuel t) r i some with
      | some j => (i, j) :: findFrom t r fuel (if i < j then j else i + 1)
      | none => findFrom t r fuel (i + 1)
    else []

/-- Model of `pattern.finditer(text)`, as the list of `(start, end)` pairs. -/
def findIter (t : List Nat) (r : RE) : List (Nat × Nat) :=
  findFrom t r (t.length + 2) 0

/-! ### Regex combinators used to transliterate the source patterns -/

def rcats : List RE → RE
  | [] => .eps
  | [r] => r
  | r :: rs => .cat r (rcats rs)

def ralts : List RE → RE
  | [] => .cls (fun _ => false)
  | [r] => r
  | r :: rs => .alt r (ralts rs)

/-- Literal character. -/
def rch (c : Nat) : RE := .cls (fun x => x == c)

/-- Literal character, case-insensitively. -/
def rchCI (c : Nat) : RE := .cls (fun x => lowerC x == lowerC c)

/-- Literal string. -/
def rstr (s : String) : RE := rcats ((s2c s).map rch)

/-- Literal string, case-insensitively. -/
def rstrCI (s : String) : RE := rcats ((s2c s).map rchCI)

/-- Greedy `r?`. -/
def ropt (r : RE) : RE := .alt r .eps

/-- `r` exactly `n` times. -/
def rrepN : RE → Nat → RE
  | _, 0 => .eps
  | r, n + 1 => .cat r (rrepN r n)

/-- Greedy `r{0,n}` in the nested form `(r(r...)?)?` used by backtracking
engines. -/
def roptNest : RE → Nat → RE
  | _, 0 => .eps
  | r, n + 1 => .alt (.cat r (roptNest r n)) .eps

/-- Greedy `r{lo,hi}`. -/
def rrep (r : RE) (lo hi : Nat) : RE := .cat (rrepN r lo) (roptNest r (hi - lo))

/-- Greedy `r{lo,}`. -/
def rrepInf (r : RE) (lo : Nat) : RE := .cat (rrepN r lo) (.star r)

/-- Greedy `r+`. -/
def rplus (r : RE) : RE := rrepInf r 1

/-! ### The PII_PATTERNS of the source (compiled with IGNORECASE|VERBOSE) -/

/-- `[A-Za-z0-9._%+-]` -/
def emailLocalC (c : Nat) : Bool :=
  isUpperA c || isLowerA c || isDigitC c ||
    c == 46 || c == 95 || c == 37 || c == 43 || c == 45

/-- `[A-Za-z0-9.-]` -/
def emailDomC (c : Nat) : Bool :=
  isUpperA c || isLowerA c || isDigitC c || c == 46 || c == 45

/-- `[A-Z|a-z]` (the source's TLD class literally contains `|`). -/
def tldC (c : Nat) : Bool := isUpperA c || isLowerA c || c == 124

/-- `\b[A-Za-z0-9._%+-]+@[A-Za-z0-9.-]+\.[A-Z|a-z]{2,}\b` -/
def emailRE : RE :=
  rcats [.wordB, rplus (.cls emailLocalC), rch 64, rplus (.cls emailDomC),
    rch 46, rrepInf (.cls tldC) 2, .wordB]

/-- `[-.\s]` -/
def sepC (c : Nat) : Bool := c == 45 || c == 46 || isSpaceC c

def rdigit : RE := .cls isDigitC

/-- Phone branch `\+\d{1,3}[-.\s]?\(?\d{1,4}\)?[-.\s]?\d{1,4}[-.\s]?\d{1,9}` -/
def phoneB1 : RE :=
  rcats [rch 43, rrep rdigit 1 3, ropt (.cls sepC), ropt (rch 40),
    rrep rdigit 1 4, ropt (rch 41), ropt (.cls sepC), rrep rdigit 1 4,
    ropt (.cls sepC), rrep rdigit 1 9]

/-- Phone branch `\(?\d{3}\)?[-.\s]?\d{3}[-.\s]?\d{4}` -/
def phoneB2 : RE :=
  rcats [ropt (rch 40), rrepN rdigit 3, ropt (rch 41), ropt (.cls sepC),
    rrepN rdigit 3, ropt (.cls sepC), rrepN rdigit 4]

/-- Phone branch `\d{2,3}[-.\s]\d{2,4}[-.\s]\d{3,4}[-.\s]?\d{0,4}` -/
def phoneB3 : RE :=
  rcats [rrep rdigit 2 3, .cls sepC, rrep rdigit 2 4, .cls sepC,
    rrep rdigit 3 4, ropt (.cls sepC), rrep rdigit 0 4]

/-- Phone branch `(?<!\d)\d{10,11}(?!\d)` -/
def phoneB4 : RE :=
  rcats [.lookb1 true isDigitC, rrep rdigit 10 11, .look true rdigit]

def phoneRE : RE := ralts [phoneB1, phoneB2, phoneB3, phoneB4]

/-- `[^\s<>"'\)]` -/
def urlTailC (c : Nat) : Bool :=
  !(isSpaceC c || c == 60 || c == 62 || c == 34 || c == 39 || c == 41)

/-- ASCII `[a-zA-Z0-9]` -/
def alnumA (c : Nat) : Bool := isUpperA c || isLowerA c || isDigitC c

/-- `[-a-zA-Z0-9]` -/
def hyphAlnumA (c : Nat) : Bool := alnumA c || c == 45

/-- ASCII `[a-zA-Z]` -/
def alphaA (c : Nat) : Bool := isUpperA c || isLowerA c

/-- `https?://[^\s<>"'\)]+` -/
def urlB1 : RE :=
  rcats [rstrCI "http", ropt (rchCI 115), rstr "://", rplus (.cls urlTailC)]

/-- `(?:linkedin\.com/in/|linkedin\.com/pub/)[^\s<>"'\)]+` -/
def urlB2 : RE :=
  .cat (.alt (rstrCI "linkedin.com/in/") (rstrCI "linkedin.com/pub/"))
    (rplus (.cls urlTailC))

/-- `github\.com/[^\s<>"'\)]+` -/
def urlB3 : RE := .cat (rstrCI "github.com/") (rplus (.cls urlTailC))

/-- `(?:twitter\.com|x\.com)/[^\s<>"'\)]+` -/
def urlB4 : RE :=
  rcats [.alt (rstrCI "twitter.com") (rstrCI "x.com"), rch 47,
    rplus (.cls urlTailC)]

/-- `(?:www\.)?[a-zA-Z0-9][-a-zA-Z0-9]*\.[a-zA-Z]{2,}(?:/[^\s<>"'\)]*)?` -/
def urlB5 : RE :=
  rcats [ropt (rstrCI "www."), .cls alnumA, .star (.cls hyphAlnumA), rch 46,
    rrepInf (.cls alphaA) 2, ropt (.cat (rch 47) (.star (.cls urlTailC)))]

def urlRE : RE := ralts [urlB1, urlB2, urlB3, urlB4, urlB5]

/-- `[A-Za-z0-9_]` -/
def wordA (c : Nat) : Bool := alnumA c || c == 95

/-- `@[A-Za-z][A-Za-z0-9_]{2,30}` -/
def usernameRE : RE := rcats [rch 64, .cls alphaA, rrep (.cls wordA) 2 30]

/-! ### NAME_PATTERNS (compiled case-sensitively) -/

/-- `_UPPER = [A-ZÀ-ÖØ-ÞĀ-Ž]` -/
def isUpperName (c : Nat) : Bool :=
  inR 65 90 c || inR 192 214 c || inR 216 222 c || inR 256 381 c

/-- `_LOWER = [a-zà-öø-ÿā-ž]` -/
def isLowerName (c : Nat) : Bool :=
  inR 97 122 c || inR 224 246 c || inR 248 255 c || inR 257 382 c

/-- `_NAME_WORD`: a capitalized word. -/
def rNameWord : RE := .cat (.cls isUpperName) (rplus (.cls isLowerName))

/-- `\s+` -/
def rsp1 : RE := rplus (.cls isSpaceC)

/-- Title alternation `Mr\.?|Mrs\.?|Ms\.?|Miss|Dr\.?|Prof\.?|Professor`. -/
def titleAlt : RE :=
  ralts [.cat (rstr "Mr") (ropt (rch 46)), .cat (rstr "Mrs") (ropt (rch 46)),
    .cat (rstr "Ms") (ropt (rch 46)), rstr "Miss",
    .cat (rstr "Dr") (ropt (rch 46)), .cat (rstr "Prof") (ropt (rch 46)),
    rstr "Professor"]

/-- First name pattern: title followed by 1–3 capitalized words. -/
def name0RE : RE :=
  rcats [.wordB, titleAlt, rsp1, rNameWord,
    rrep (.cat rsp1 rNameWord) 0 2, .wordB]

/-- Suffix alternation `Jr\.?|Sr\.?|III?|IV`. -/
def suffixAlt : RE :=
  ralts [.cat (rstr "Jr") (ropt (rch 46)), .cat (rstr "Sr") (ropt (rch 46)),
    .cat (rstr "II") (ropt (rch 73)), rstr "IV"]

/-- Second name pattern: two capitalized words followed by a suffix. -/
def name1RE : RE :=
  rcats [.wordB, rNameWord, rsp1, rNameWord, rsp1, suffixAlt, .wordB]

/-! ### FORM_FIELD_PATTERNS (compiled with IGNORECASE|MULTILINE) -/

/-- The case-insensitive closure of the strict name-word classes:
under IGNORECASE both `[A-ZÀ-ÖØ-ÞĀ-Ž]` and `[a-zà-öø-ÿā-ž]` accept either
case of those letters. -/
def nameCIC (c : Nat) : Bool := isUpperName c || isLowerName c

/-- `_NAME_WORD_STRICT` under IGNORECASE: one letter plus 2–25 letters. -/
def rNameStrict : RE := .cat (.cls nameCIC) (rrep (.cls nameCIC) 2 25)

/-- `$` under MULTILINE: end of text or just before a newline. -/
def rDollarML : RE := .alt .eot (.look false (rch 10))

/-- `(?=\s|$|\n|[^\wÀ-ÿ])`, the guard closing every form-field pattern. -/
def lookEnd : RE :=
  .look false (ralts [.cls isSpaceC, rDollarML, rch 10,
    .cls (fun c => !(isWordC c || inR 192 255 c))])

/-- `\s*:?\s*` between the label and the captured name. -/
def labelSep : RE := rcats [.star (.cls isSpaceC), ropt (rch 58), .star (.cls isSpaceC)]

/-- The five form-field patterns, as (prefix, capture-group) pairs; the
trailing lookahead `lookEnd` is shared.  The capture group is always
group 1 and sits between the prefix and the lookahead. -/
def formPre1 : RE := rcats [.wordB, rstrCI "First", rsp1, rstrCI "Name", .wordB, labelSep]

def formGrp1 : RE := rNameStrict

def formPre2 : RE := rcats [.wordB, rstrCI "Last", rsp1, rstrCI "Name", .wordB, labelSep]

def formGrp2 : RE := .cat rNameStrict (ropt (.cat rsp1 rNameStrict))

def formPre3 : RE := rcats [.wordB, rstrCI "Full", rsp1, rstrCI "Name", .wordB, labelSep]

def formGrp3 : RE := .cat rNameStrict (rrep (.cat rsp1 rNameStrict) 0 3)

def formPre4 : RE := rcats [.wordB, rstrCI "Middle", rsp1, rstrCI "Name", .wordB, labelSep]

def formGrp4 : RE := rNameStrict

def roleAlt : RE :=
  ralts [rstrCI "Recommender", rstrCI "Reference", rstrCI "Referee",
    rstrCI "Supervisor", rstrCI "Advisor", rstrCI "Manager", rstrCI "Mentor"]

/-- `(?:\d+\s*(?:Name)?|Name)` -/
def numOrName : RE :=
  .alt (rcats [rplus rdigit, .star (.cls isSpaceC), ropt (rstrCI "Name")])
    (rstrCI "Name")

def formPre5 : RE := rcats [.wordB, roleAlt, rsp1, numOrName, labelSep]

def formGrp5 : RE := .cat rNameStrict (rrep (.cat rsp1 rNameStrict) 0 2)

def formPatterns : List (RE × RE) :=
  [(formPre1, formGrp1), (formPre2, formGrp2), (formPre3, formGrp3),
   (formPre4, formGrp4), (formPre5, formGrp5)]

/-- `finditer` for a form-field pattern, returning the offsets
`(group-start, group-end)` of group 1 of each match.  The end of the whole
match coincides with the group end because the pattern closes with a
zero-width lookahead.  The two offsets are packed as
`groupStart * (length t + 1) + groupEnd` inside the matcher. -/
def findGroupFrom (t : List Nat) (pre grp : RE) : Nat → Nat → List (Nat × Nat)
  | 0, _ => []
  | fuel + 1, i =>
    if i ≤ t.length then
      match mfirst t (mFuel t) pre i (fun j =>
          mfirst t (mFuel t) grp j (fun g =>
            mfirst t (mFuel t) lookEnd g (fun _ =>
              some (j * (t.length + 1) + g)))) with
      | some v =>
        let g := v % (t.length + 1)
        let j := v / (t.length + 1)
        (j, g) :: findGroupFrom t pre grp fuel (if i < g then g else i + 1)
      | none => findGroupFrom t pre grp fuel (i + 1)
    else []

def findGroup (t : List Nat) (pre grp : RE) : List (Nat × Nat) :=
  findGroupFrom t pre grp (t.length + 2) 0

/-! ### COMMON_WORDS and the known-name registry -/

/-- The literal COMMON_WORDS set of the source.  Note `'centermy'`: in the
source the string literals `'center'` and `'my'` are adjacent without a
comma and are therefore concatenated by the Python parser. -/
def commonWords : List (List Nat) :=
  ["for", "the", "and", "or", "but", "with", "from", "to", "of", "in",
   "on", "at", "by", "as", "is", "are", "was", "were", "be", "been",
   "have", "has", "had", "do", "does", "did", "will", "would", "could",
   "should", "may", "might", "can", "must", "this", "that", "these",
   "those", "a", "an", "reference", "references", "refer", "referring",
   "organization", "centermy", "your", "his", "her", "its", "our",
   "their", "me", "you", "him", "us", "them", "i", "we", "they", "he",
   "she", "it", "cross", "name", "title", "professor", "department"].map s2c

/-- A span is a `(start, end, category)` triple. -/
abbrev Span := Nat × Nat × String

/-- First substring occurrence of `pat` in `t` at or after offset `s`
(model of `str.find`). -/
def findSub (t pat : List Nat) : Nat → Nat → Option Nat
  | 0, _ => none
  | fuel + 1, s =>
    if s + pat.length ≤ t.length then
      (if pat.isPrefixOf (t.drop s) then some s else findSub t pat fuel (s + 1))
    else none

/-- Is the character at offset `i` (if any) alphanumeric? -/
def alnumAt (t : List Nat) (i : Nat) : Bool :=
  match charAt t i with
  | some c => isalnumC c
  | none => false

/-- `pos == 0 or not text[pos-1].isalnum()` -/
def beforeOk (t : List Nat) (p : Nat) : Bool :=
  p == 0 || !(alnumAt t (p - 1))

/-- `pos + len(name) >= len(text) or not text[pos + len(name)].isalnum()` -/
def afterOk (t : List Nat) (p L : Nat) : Bool :=
  decide (t.length ≤ p + L) || !(alnumAt t (p + L))

/-- The `while True` loop of the known-name scan: repeatedly `find` the
lowered name in the lowered text, emit a span on a word-boundary hit, and
resume one character further.  `L` is `len(name)` (of the unlowered,
unstripped registry entry, exactly as in the source). -/
def scanLoop (t tl nl : List Nat) (L : Nat) : Nat → Nat → List Span
  | 0, _ => []
  | fuel + 1, s =>
    match findSub tl nl (tl.length + 1) s with
    | none => []
    | some q =>
      (if beforeOk t q && afterOk t q L then [(q, q + L, "known_name")] else []) ++
        scanLoop t tl nl L fuel (q + 1)

/-- Spans contributed by one registry entry in `find_pii_in_text`. -/
def scanName (t : List Nat) (name : List Nat) : List Span :=
  if name.isEmpty then []
  else
    let nl := strip (lowerStr name)
    if nl ∈ commonWords then []
    else if nl.length < 3 then []
    else scanLoop t (lowerStr t) nl name.length (t.length + 1) 0

/-- The known-name portion of `find_pii_in_text`. -/
def knownNameMatches (reg : List (List Nat)) (t : List Nat) : List Span :=
  reg.flatMap (scanName t)

/-! ### Pattern matches and the merge step -/

/-- `self.compiled_patterns`: the built-in PII patterns followed by the two
name patterns (no custom patterns are configured in the source). -/
def compiledPatterns : List (String × RE) :=
  [("email", emailRE), ("phone", phoneRE), ("url", urlRE),
   ("username", usernameRE), ("name_pattern_0", name0RE),
   ("name_pattern_1", name1RE)]

/-- Raw spans from all compiled patterns, in pattern order. -/
def patternMatches (t : List Nat) : List Span :=
  compiledPatterns.flatMap (fun p => (findIter t p.2).map (fun m => (m.1, m.2, p.1)))

/-- The sort key comparison of `sorted(matches, key=lambda x: (x[0], -x[1]))`:
start ascending, end descending. -/
def keyLe (a b : Span) : Prop :=
  a.1 < b.1 ∨ (a.1 = b.1 ∧ b.2.1 ≤ a.2.1)

instance (a b : Span) : Decidable (keyLe a b) := by
  unfold keyLe
  infer_instance

/-- Stable insertion: `x` is placed before the first element whose key is
not smaller, so that later elements with equal keys stay behind earlier
ones, exactly as Python's stable sort. -/
def insertSorted (x : Span) : List Span → List Span
  | [] => [x]
  | y :: ys => if keyLe x y then x :: y :: ys else y :: insertSorted x ys

/-- Model of the stable `sorted(..., key=lambda x: (x[0], -x[1]))`. -/
def sortSpans : List Span → List Span
  | [] => []
  | x :: xs => insertSorted x (sortSpans xs)

/-- The merging walk of `_merge_overlapping`: `cur` is `merged[-1]`. -/
def mergeWalk (cur : Span) : List Span → List Span
  | [] => [cur]
  | s :: rest =>
    if s.1 ≤ cur.2.1 then
      (if cur.2.1 < s.2.1 then mergeWalk (cur.1, s.2.1, cur.2.2) rest
       else mergeWalk cur rest)
    else cur :: mergeWalk s rest

/-- `_merge_overlapping`: sort by `(start, -end)`, then fuse every span
whose start does not exceed the running end. -/
def merge_overlapping (l : List Span) : List Span :=
  match sortSpans l with
  | [] => []
  | x :: xs => mergeWalk x xs

/-- `find_pii_in_text`: pattern matches, then known-name matches, then the
merge.  The registry is modelled as the list of its elements in iteration
order. -/
def find_pii_in_text (reg : List (List Nat)) (t : List Nat) : List Span :=
  merge_overlapping (patternMatches t ++ knownNameMatches reg t)

/-! ### Registry growth: add_known_names and the redact_page update -/

/-- Set insertion on the registry (Python `set.add`). -/
def setAdd (reg : List (List Nat)) (x : List Nat) : List (List Nat) :=
  if x ∈ reg then reg else reg ++ [x]

/-- Does the (nonempty) name start with an uppercase letter? -/
def firstUpper (l : List Nat) : Bool :=
  match l with
  | [] => false
  | c :: _ => isUpperPy c

/-- The part-adding inner loop shared by `add_known_names` and
`redact_page`: each whitespace-separated part longer than 2 characters
that is not a stopword and starts with a capital is added. -/
def addParts (reg : List (List Nat)) (name : List Nat) : List (List Nat) :=
  (splitWs name).foldl
    (fun r part =>
      if decide (2 < part.length) && !(decide (lowerStr part ∈ commonWords)) &&
          firstUpper part then
        setAdd r part
      else r)
    reg

/-- `add_known_names`. -/
def add_known_names (reg : List (List Nat)) (names : List (List Nat)) :
    List (List Nat) :=
  names.foldl
    (fun r name =>
      let nameClean := strip name
      if lowerStr nameClean ∈ commonWords then r
      else addParts (setAdd r nameClean) nameClean)
    reg

/-- `extract_names_from_form_fields`: run every form pattern, keep each
captured name that is longer than 1 character and whose stripped form is
not a stopword, has length at least 2 and starts with a capital.  The
Python set is modelled as a deduplicating list in discovery order. -/
def extract_names_from_form_fields (t : List Nat) : List (List Nat) :=
  formPatterns.foldl
    (fun acc pg =>
      (findGroup t pg.1 pg.2).foldl
        (fun acc2 m =>
          let name := (t.drop m.1).take (m.2 - m.1)
          if !name.isEmpty && decide (1 < name.length) then
            let nameClean := strip name
            if !(decide (lowerStr nameClean ∈ commonWords)) &&
                decide (2 ≤ nameClean.length) && firstUpper nameClean then
              setAdd acc2 nameClean
            else acc2
          else acc2)
        acc)
    []

/-- The registry update performed at the start of `redact_page`: every
extracted form-field name (and its qualifying parts) is added to
`self.known_names`. -/
def registry_add_from_page (reg : List (List Nat)) (t : List Nat) :
    List (List Nat) :=
  (extract_names_from_form_fields t).foldl
    (fun r name =>
      if lowerStr name ∈ commonWords then r
      else addParts (setAdd r name) name)
    reg

/-! ### anonymize_folder -/

/-- The per-file loop of `anonymize_folder`: each file is processed by the
fallible per-file routine (`anonymize_pdf`, whose document I/O is the
external collaborator and is abstracted as `process`); an exception is
caught, logged and skipped, a success is appended to the output list. -/
def anonymize_folder (process : String → Except String String)
    (files : List String) : List String :=
  files.foldl
    (fun outs f =>
      match process f with
      | .ok r => outs ++ [r]
      | .error _ => outs)
    []

/-- The `(start, end)` boundary pair of a span, forgetting the category. -/
def bKey (sp : Span) : Nat × Nat := (sp.1, sp.2.1)

/-- The sort-key order on boundary pairs (start ascending, end descending). -/
def kle2 (p q : Nat × Nat) : Prop := p.1 < q.1 ∨ (p.1 = q.1 ∧ q.2 ≤ p.2)

/-! ## Lemmas about the sort of `_merge_overlapping` -/

theorem keyLe_total (a b : Span) : keyLe a b ∨ keyLe b a := by
  unfold keyLe
  omega

theorem keyLe_trans {a b c : Span} (h1 : keyLe a b) (h2 : keyLe b c) :
    keyLe a c := by
  unfold keyLe at h1 h2 ⊢
  omega

theorem insertSorted_perm (x : Span) :
    ∀ l, (insertSorted x l).Perm (x :: l)
  | [] => List.Perm.refl _
  | y :: ys => by
    unfold insertSorted
    split
    · exact List.Perm.refl _
    · exact ((insertSorted_perm x ys).cons y).trans (List.Perm.swap x y ys)

theorem insertSorted_pairwise (x : Span) :
    ∀ l, l.Pairwise keyLe → (insertSorted x l).Pairwise keyLe
  | [], _ => by simp [insertSorted]
  | y :: ys, h => by
    obtain ⟨hy, hys⟩ := List.pairwise_cons.1 h
    unfold insertSorted
    split
    · rename_i hxy
      refine List.pairwise_cons.2 ⟨?_, h⟩
      intro z hz
      rcases List.mem_cons.1 hz with rfl | hz
      · exact hxy
      · exact keyLe_trans hxy (hy z hz)
    · rename_i hxy
      have hyx : keyLe y x := (keyLe_total x y).resolve_left hxy
      refine List.pairwise_cons.2 ⟨?_, insertSorted_pairwise x ys hys⟩
      intro z hz
      rcases List.mem_cons.1 ((insertSorted_perm x ys).mem_iff.1 hz) with rfl | hz
      · exact hyx
      · exact hy z hz

theorem sortSpans_perm : ∀ l : List Span, (sortSpans l).Perm l
  | [] => List.Perm.refl _
  | x :: xs => (insertSorted_perm x (sortSpans xs)).trans ((sortSpans_perm xs).cons x)

theorem sortSpans_pairwise : ∀ l : List Span, (sortSpans l).Pairwise keyLe
  | [] => List.Pairwise.nil
  | x :: xs => insertSorted_pairwise x _ (sortSpans_pairwise xs)

theorem sortSpans_sorted_id : ∀ l : List Span, l.Chain' keyLe → sortSpans l = l
  | [], _ => rfl
  | x :: xs, h => by
    have hxs := sortSpans_sorted_id xs h.tail
    unfold sortSpans
    rw [hxs]
    cases xs with
    | nil => rfl
    | cons y ys =>
      unfold insertSorted
      rw [if_pos (List.chain'_cons.1 h).1]

/-! ## Lemmas about the merging walk -/

theorem mergeWalk_spec (r : List Span) (c : Span) (h : (c :: r).Pairwise keyLe) :
    ∃ E tail, mergeWalk c r = (c.1, E, c.2.2) :: tail ∧ c.2.1 ≤ E ∧
      ((c.1, E, c.2.2) :: tail).Chain' (fun a b => keyLe a b ∧ a.2.1 < b.1) ∧
      ∀ b, c.2.1 ≤ b → (∀ x ∈ r, x.1 ≤ b → x.2.1 ≤ b) → E ≤ b := by
  induction r generalizing c with
  | nil => exact ⟨c.2.1, [], rfl, le_refl _, by simp, fun b hb _ => hb⟩
  | cons s rest ih =>
    have hcs : keyLe c s := (List.pairwise_cons.1 h).1 s (List.mem_cons_self s rest)
    have hcrest : ∀ x ∈ rest, keyLe c x := fun x hx =>
      (List.pairwise_cons.1 h).1 x (List.mem_cons_of_mem s hx)
    have hsrest : (s :: rest).Pairwise keyLe := (List.pairwise_cons.1 h).2
    have hs : ∀ x ∈ rest, keyLe s x := (List.pairwise_cons.1 hsrest).1
    have hrest : rest.Pairwise keyLe := (List.pairwise_cons.1 hsrest).2
    by_cases h1 : s.1 ≤ c.2.1
    · by_cases h2 : c.2.1 < s.2.1
      · have hpair : ((c.1, s.2.1, c.2.2) :: rest).Pairwise keyLe := by
          refine List.pairwise_cons.2 ⟨?_, hrest⟩
          intro x hx
          have h3 := hcrest x hx
          have h4 := hs x hx
          unfold keyLe at hcs h3 h4 ⊢
          simp only at h3 h4 hcs ⊢
          omega
        obtain ⟨E, tail, heq, hle, hch, hbound⟩ := ih (c.1, s.2.1, c.2.2) hpair
        simp only at hle
        refine ⟨E, tail, ?_, by omega, hch, ?_⟩
        · simp only [mergeWalk, if_pos h1, if_pos h2]
          exact heq
        · intro b hb hx
          refine hbound b ?_ fun x hxm hxb => hx x (List.mem_cons_of_mem s hxm) hxb
          simp only
          exact hx s (List.mem_cons_self s rest) (by omega)
      · have hpair : (c :: rest).Pairwise keyLe :=
          List.pairwise_cons.2 ⟨hcrest, hrest⟩
        obtain ⟨E, tail, heq, hle, hch, hbound⟩ := ih c hpair
        refine ⟨E, tail, ?_, hle, hch, ?_⟩
        · simp only [mergeWalk, if_pos h1, if_neg h2]
          exact heq
        · intro b hb hx
          exact hbound b hb fun x hxm hxb => hx x (List.mem_cons_of_mem s hxm) hxb
    · obtain ⟨E', tail', heq', hle', hch', hbound'⟩ := ih s hsrest
      have hgap : c.2.1 < s.1 := by omega
      have hk : keyLe (c.1, c.2.1, c.2.2) (s.1, E', s.2.2) := by
        unfold keyLe at hcs ⊢
        simp only at hcs ⊢
        rcases hcs with hlt | ⟨heq1, hle1⟩
        · exact Or.inl hlt
        · refine Or.inr ⟨heq1, ?_⟩
          refine hbound' c.2.1 hle1 ?_
          intro x hx hxb
          have := hs x hx
          unfold keyLe at this
          omega
      refine ⟨c.2.1, (s.1, E', s.2.2) :: tail', ?_, le_refl _, ?_, fun b hb _ => hb⟩
      · simp only [mergeWalk, if_neg h1]
        rw [heq']
      · exact List.chain'_cons.2 ⟨⟨hk, hgap⟩, hch'⟩

theorem merge_chain (l : List Span) :
    (merge_overlapping l).Chain' (fun a b => keyLe a b ∧ a.2.1 < b.1) := by
  have hdef : merge_overlapping l =
      match sortSpans l with
      | [] => []
      | x :: xs => mergeWalk x xs := rfl
  rw [hdef]
  cases hs : sortSpans l with
  | nil => simp
  | cons x xs =>
    have hp : (x :: xs).Pairwise keyLe := hs ▸ sortSpans_pairwise l
    obtain ⟨E, tail, heq, _, hch, _⟩ := mergeWalk_spec xs x hp
    show List.Chain' (fun a b => keyLe a b ∧ a.2.1 < b.1) (mergeWalk x xs)
    rw [heq]
    exact hch

theorem mergeWalk_no_merge :
    ∀ (r : List Span) (c : Span), (c :: r).Chain' (fun a b => a.2.1 < b.1) →
      mergeWalk c r = c :: r
  | [], _, _ => rfl
  | s :: rest, c, h => by
    have h1 : c.2.1 < s.1 := (List.chain'_cons.1 h).1
    simp only [mergeWalk, if_neg (by omega : ¬ s.1 ≤ c.2.1)]
    rw [mergeWalk_no_merge rest s (List.chain'_cons.1 h).2]

/-- `_merge_overlapping` is idempotent: merging an already-merged span list
yields the same list.  (claim C3) -/
theorem c3_merge_idempotent (l : List Span) :
    merge_overlapping (merge_overlapping l) = merge_overlapping l := by
  have hch := merge_chain l
  have hkle : (merge_overlapping l).Chain' keyLe :=
    hch.imp fun a b hab => hab.1
  have hgap : (merge_overlapping l).Chain' (fun a b : Span => a.2.1 < b.1) :=
    hch.imp fun a b hab => hab.2
  have hdef : merge_overlapping (merge_overlapping l) =
      match sortSpans (merge_overlapping l) with
      | [] => []
      | x :: xs => mergeWalk x xs := rfl
  rw [hdef, sortSpans_sorted_id _ hkle]
  cases hm : merge_overlapping l with
  | nil => rfl
  | cons x xs => exact mergeWalk_no_merge xs x (hm ▸ hgap)

/-! ## Order-independence of the merged boundaries -/

instance : IsAntisymm (Nat × Nat) kle2 := by
  refine ⟨fun a b h1 h2 => ?_⟩
  unfold kle2 at h1 h2
  refine Prod.ext_iff.2 ⟨?_, ?_⟩ <;> omega

theorem mergeWalk_key_congr :
    ∀ (l1 l2 : List Span) (c1 c2 : Span), bKey c1 = bKey c2 →
      l1.map bKey = l2.map bKey →
      (mergeWalk c1 l1).map bKey = (mergeWalk c2 l2).map bKey := by
  intro l1
  induction l1 with
  | nil =>
    intro l2 c1 c2 hc hl
    cases l2 with
    | nil => simp [mergeWalk, hc]
    | cons s2 r2 => simp at hl
  | cons s1 r1 ih =>
    intro l2 c1 c2 hc hl
    cases l2 with
    | nil => simp at hl
    | cons s2 r2 =>
      simp only [List.map_cons, List.cons.injEq] at hl
      obtain ⟨hs, hr⟩ := hl
      simp only [bKey, Prod.mk.injEq] at hc hs
      by_cases h1 : s1.1 ≤ c1.2.1
      · by_cases h2 : c1.2.1 < s1.2.1
        · simp only [mergeWalk, if_pos h1, if_pos h2,
            if_pos (show s2.1 ≤ c2.2.1 by omega),
            if_pos (show c2.2.1 < s2.2.1 by omega)]
          exact ih r2 (c1.1, s1.2.1, c1.2.2) (c2.1, s2.2.1, c2.2.2)
            (by simp only [bKey, Prod.mk.injEq]; omega) hr
        · simp only [mergeWalk, if_pos h1, if_neg h2,
            if_pos (show s2.1 ≤ c2.2.1 by omega),
            if_neg (show ¬ c2.2.1 < s2.2.1 by omega)]
          exact ih r2 c1 c2 (by simp only [bKey, Prod.mk.injEq]; omega) hr
      · simp only [mergeWalk, if_neg h1,
          if_neg (show ¬ s2.1 ≤ c2.2.1 by omega), List.map_cons]
        refine congrArg₂ List.cons ?_ (ih r2 s1 s2 ?_ hr)
        · simp only [bKey, Prod.mk.injEq]
          omega
        · simp only [bKey, Prod.mk.injEq]
          omega

theorem sortSpans_keys_eq {l l' : List Span} (hperm : l.Perm l') :
    (sortSpans l).map bKey = (sortSpans l').map bKey := by
  have hp : ((sortSpans l).map bKey).Perm ((sortSpans l').map bKey) :=
    (((sortSpans_perm l).trans hperm).trans (sortSpans_perm l').symm).map bKey
  have hs1 : ((sortSpans l).map bKey).Pairwise kle2 :=
    List.pairwise_map.2 ((sortSpans_pairwise l).imp (fun h => h))
  have hs2 : ((sortSpans l').map bKey).Pairwise kle2 :=
    List.pairwise_map.2 ((sortSpans_pairwise l').imp (fun h => h))
  exact List.eq_of_perm_of_sorted hp hs1 hs2

/-- For every list of raw spans and every permutation of it,
`_merge_overlapping` returns the same sequence of `(start, end)` boundary
pairs; only the surviving category labels can depend on the input order.
(claim C10) -/
theorem c10_merge_perm_invariant (l l' : List Span) (hperm : l.Perm l') :
    (merge_overlapping l).map bKey = (merge_overlapping l').map bKey := by
  have hdef : merge_overlapping l =
      match sortSpans l with
      | [] => []
      | x :: xs => mergeWalk x xs := rfl
  have hdef' : merge_overlapping l' =
      match sortSpans l' with
      | [] => []
      | x :: xs => mergeWalk x xs := rfl
  have hkeys := sortSpans_keys_eq hperm
  rw [hdef, hdef']
  cases h1 : sortSpans l with
  | nil =>
    cases h2 : sortSpans l' with
    | nil => rfl
    | cons y ys => rw [h1, h2] at hkeys; simp at hkeys
  | cons x xs =>
    cases h2 : sortSpans l' with
    | nil => rw [h1, h2] at hkeys; simp at hkeys
    | cons y ys =>
      rw [h1, h2] at hkeys
      simp only [List.map_cons, List.cons.injEq] at hkeys
      exact mergeWalk_key_congr xs ys x y hkeys.1 hkeys.2

/-- Applying the theorem of C10 to a concrete permutation of the merge
example list. -/
theorem c10_merge_perm_invariant_witness :
    (merge_overlapping [(3, 8, "b"), (0, 5, "a"), (10, 12, "c")]).map bKey =
      (merge_overlapping [(0, 5, "a"), (3, 8, "b"), (10, 12, "c")]).map bKey :=
  c10_merge_perm_invariant _ _ (by decide)

/-- Merging the raw list `[(0,5,"a"),(3,8,"b"),(10,12,"c")]` fuses the two
overlapping spans, keeping the first sorted span's category, and keeps the
disjoint span separate.  (claim C2) -/
theorem c2_merge_example :
    merge_overlapping [(0, 5, "a"), (3, 8, "b"), (10, 12, "c")] =
      [(0, 8, "a"), (10, 12, "c")] := by decide

/-! ## Bounds produced by the matcher -/

theorem charAt_lt {t : List Nat} {i c : Nat} (h : charAt t i = some c) :
    i < t.length := by
  by_contra hlt
  push_neg at hlt
  unfold charAt at h
  rw [List.drop_eq_nil_of_le hlt] at h
  simp at h

/-- Every successful run of the matcher hands the continuation an offset
`j` between `i` and the end of the text, strictly beyond `i` whenever the
expression cannot match the empty string. -/
theorem mfirst_bound (t : List Nat) :
    ∀ fuel r i k v, i ≤ t.length → mfirst t fuel r i k = some v →
      ∃ j, i ≤ j ∧ j ≤ t.length ∧ (nullableRE r = false → i < j) ∧
        k j = some v := by
  intro fuel
  induction fuel with
  | zero =>
    intro r i k v _ h
    simp [mfirst] at h
  | succ fuel ih =>
    intro r i k v hi h
    cases r with
    | eps =>
      exact ⟨i, le_refl i, hi, fun hn => by simp [nullableRE] at hn, h⟩
    | eot =>
      simp only [mfirst] at h
      split at h
      · exact ⟨i, le_refl i, hi, fun hn => by simp [nullableRE] at hn, h⟩
      · simp at h
    | cls p =>
      simp only [mfirst] at h
      cases hc : charAt t i with
      | none => rw [hc] at h; simp at h
      | some c =>
        simp only [hc] at h
        by_cases hp : p c = true
        · rw [if_pos hp] at h
          exact ⟨i + 1, by omega, charAt_lt hc, fun _ => by omega, h⟩
        · rw [if_neg hp] at h
          simp at h
    | cat a b =>
      simp only [mfirst] at h
      obtain ⟨j1, hij1, hj1len, hprog1, hk1⟩ := ih a i _ v hi h
      obtain ⟨j, hj1j, hjlen, hprog2, hk⟩ := ih b j1 k v hj1len hk1
      refine ⟨j, by omega, hjlen, ?_, hk⟩
      intro hn
      cases ha : nullableRE a with
      | false => have := hprog1 ha; omega
      | true =>
        have hb : nullableRE b = false := by
          simp [nullableRE, ha] at hn
          exact hn
        have := hprog2 hb
        omega
    | alt a b =>
      simp only [mfirst] at h
      cases hx : mfirst t fuel a i k with
      | some w =>
        rw [hx] at h
        simp only [Option.orElse] at h
        have hx' : mfirst t fuel a i k = some v := by rw [hx, h]
        obtain ⟨j, hij, hjlen, hprog, hk⟩ := ih a i k v hi hx'
        refine ⟨j, hij, hjlen, ?_, hk⟩
        intro hn
        simp only [nullableRE, Bool.or_eq_false_iff] at hn
        exact hprog hn.1
      | none =>
        rw [hx] at h
        simp only [Option.orElse] at h
        obtain ⟨j, hij, hjlen, hprog, hk⟩ := ih b i k v hi h
        refine ⟨j, hij, hjlen, ?_, hk⟩
        intro hn
        simp only [nullableRE, Bool.or_eq_false_iff] at hn
        exact hprog hn.2
    | star a =>
      simp only [mfirst] at h
      cases hx : mfirst t fuel a i
          (fun j => if j == i then none else mfirst t fuel (RE.star a) j k) with
      | some w =>
        rw [hx] at h
        simp only [Option.orElse] at h
        have hx' : mfirst t fuel a i
            (fun j => if j == i then none else mfirst t fuel (RE.star a) j k) =
              some v := by rw [hx, h]
        obtain ⟨j1, hij1, hj1len, _, hk1⟩ := ih a i _ v hi hx'
        split at hk1
        · simp at hk1
        · obtain ⟨j, hj1j, hjlen, _, hk⟩ := ih (RE.star a) j1 k v hj1len hk1
          exact ⟨j, by omega, hjlen, fun hn => by simp [nullableRE] at hn, hk⟩
      | none =>
        rw [hx] at h
        simp only [Option.orElse] at h
        exact ⟨i, le_refl i, hi, fun hn => by simp [nullableRE] at hn, h⟩
    | look neg a =>
      simp only [mfirst] at h
      split at h
      · simp at h
      · exact ⟨i, le_refl i, hi, fun hn => by simp [nullableRE] at hn, h⟩
    | lookb1 neg p =>
      simp only [mfirst] at h
      split at h
      · simp at h
      · exact ⟨i, le_refl i, hi, fun hn => by simp [nullableRE] at hn, h⟩
    | wordB =>
      simp only [mfirst] at h
      split at h
      · exact ⟨i, le_refl i, hi, fun hn => by simp [nullableRE] at hn, h⟩
      · simp at h

/-- Every span emitted by `finditer` lies inside the text and, for a
pattern that cannot match the empty string, is nonempty. -/
theorem findFrom_bounds (t : List Nat) (r : RE) :
    ∀ fuel i s e, (s, e) ∈ findFrom t r fuel i →
      i ≤ s ∧ s ≤ t.length ∧ e ≤ t.length ∧ (nullableRE r = false → s < e) := by
  intro fuel
  induction fuel with
  | zero =>
    intro i s e h
    simp [findFrom] at h
  | succ fuel ih =>
    intro i s e h
    simp only [findFrom] at h
    split at h
    · rename_i hi
      cases hm : mfirst t (mFuel t) r i some with
      | some j =>
        rw [hm] at h
        rcases List.mem_cons.1 h with heq | htail
        · simp only [Prod.mk.injEq] at heq
          obtain ⟨rfl, rfl⟩ := heq
          obtain ⟨j', hij', hj'len, hprog, hkj⟩ :=
            mfirst_bound t (mFuel t) r s some e hi hm
          obtain rfl : j' = e := by simpa using hkj
          exact ⟨le_refl s, hi, hj'len, hprog⟩
        · obtain ⟨h1, h2, h3, h4⟩ := ih _ s e htail
          have hii : i ≤ if i < j then j else i + 1 := by split <;> omega
          exact ⟨le_trans hii h1, h2, h3, h4⟩
      | none =>
        rw [hm] at h
        obtain ⟨h1, h2, h3, h4⟩ := ih _ s e h
        exact ⟨by omega, h2, h3, h4⟩
    · simp at h

/-- None of the six compiled patterns matches the empty string, so every
raw pattern span is nonempty and inside the text. -/
theorem patternMatches_bounds (t : List Nat) :
    ∀ sp ∈ patternMatches t, sp.1 < sp.2.1 ∧ sp.2.1 ≤ t.length := by
  intro sp hsp
  unfold patternMatches at hsp
  obtain ⟨p, hp, hsp⟩ := List.mem_flatMap.1 hsp
  obtain ⟨m, hm, rfl⟩ := List.mem_map.1 hsp
  have hnn : nullableRE p.2 = false := by
    simp only [compiledPatterns, List.mem_cons, List.not_mem_nil, or_false] at hp
    rcases hp with rfl | rfl | rfl | rfl | rfl | rfl <;> decide
  obtain ⟨_, _, hlen, hprog⟩ := findFrom_bounds t p.2 _ _ m.1 m.2 hm
  exact ⟨hprog hnn, hlen⟩

/-! ## The known-name scan -/

theorem findSub_le (t pat : List Nat) :
    ∀ fuel s q, findSub t pat fuel s = some q →
      s ≤ q ∧ pat.isPrefixOf (t.drop q) = true ∧ q + pat.length ≤ t.length := by
  intro fuel
  induction fuel with
  | zero =>
    intro s q h
    simp [findSub] at h
  | succ fuel ih =>
    intro s q h
    simp only [findSub] at h
    split at h
    · rename_i hguard
      split at h
      · rename_i hpre
        obtain rfl : s = q := by simpa using h
        exact ⟨le_refl s, hpre, hguard⟩
      · obtain ⟨h1, h2, h3⟩ := ih (s + 1) q h
        exact ⟨by omega, h2, h3⟩
    · simp at h

theorem findSub_first (t pat : List Nat) (p : Nat)
    (hpre : pat.isPrefixOf (t.drop p) = true)
    (hplen : p + pat.length ≤ t.length) :
    ∀ fuel s, s ≤ p → p + 1 ≤ fuel + s →
      ∃ q, findSub t pat fuel s = some q ∧ s ≤ q ∧ q ≤ p := by
  intro fuel
  induction fuel with
  | zero =>
    intro s hsp hf
    omega
  | succ fuel ih =>
    intro s hsp hf
    simp only [findSub]
    rw [if_pos (show s + pat.length ≤ t.length by omega)]
    by_cases hps : pat.isPrefixOf (t.drop s) = true
    · rw [if_pos hps]
      exact ⟨s, rfl, le_refl s, hsp⟩
    · rw [if_neg hps]
      have hne : s ≠ p := fun he => hps (he ▸ hpre)
      obtain ⟨q, hq, hq1, hq2⟩ := ih (s + 1) (by omega) (by omega)
      exact ⟨q, hq, by omega, hq2⟩

theorem scanLoop_bounds (t tl nl : List Nat) (L : Nat) :
    ∀ fuel s sp, sp ∈ scanLoop t tl nl L fuel s →
      ∃ q, sp = (q, q + L, "known_name") ∧ q + nl.length ≤ tl.length := by
  intro fuel
  induction fuel with
  | zero =>
    intro s sp h
    simp [scanLoop] at h
  | succ fuel ih =>
    intro s sp h
    simp only [scanLoop] at h
    cases hf : findSub tl nl (tl.length + 1) s with
    | none =>
      rw [hf] at h
      simp at h
    | some q =>
      rw [hf] at h
      rcases List.mem_append.1 h with hl | hr
      · have hb := findSub_le tl nl _ _ _ hf
        refine ⟨q, ?_, hb.2.2⟩
        split at hl
        · simpa using hl
        · simp at hl
      · exact ih (q + 1) sp hr

/-- Completeness of the scan loop: every word-boundary occurrence of the
lowered name at or after the current start is emitted. -/
theorem scanLoop_complete (t tl nl : List Nat) (L p : Nat)
    (hpre : nl.isPrefixOf (tl.drop p) = true)
    (hplen : p + nl.length ≤ tl.length)
    (hok : (beforeOk t p && afterOk t p L) = true) :
    ∀ fuel s, s ≤ p → tl.length + 1 ≤ fuel + s →
      (p, p + L, "known_name") ∈ scanLoop t tl nl L fuel s := by
  intro fuel
  induction fuel with
  | zero =>
    intro s hsp hf
    omega
  | succ fuel ih =>
    intro s hsp hf
    obtain ⟨q, hq, hq1, hq2⟩ :=
      findSub_first tl nl p hpre hplen (tl.length + 1) s hsp (by omega)
    have hstep : scanLoop t tl nl L (fuel + 1) s =
        (if (beforeOk t q && afterOk t q L) = true
          then [(q, q + L, "known_name")] else []) ++
          scanLoop t tl nl L fuel (q + 1) := by
      simp only [scanLoop, hq]
    rw [hstep]
    by_cases hqp : q = p
    · subst hqp
      rw [if_pos hok]
      exact List.mem_append_left _ (List.mem_cons_self _ _)
    · exact List.mem_append_right _ (ih (q + 1) (by omega) (by omega))

/-! ## strip and lower commute -/

theorem isSpaceC_lowerC (c : Nat) : isSpaceC (lowerC c) = isSpaceC c := by
  by_cases h : (isUpperA c || (inR 192 222 c && !(c == 215))) = true
  · have hc : 65 ≤ c ∧ c ≤ 90 ∨ 192 ≤ c ∧ c ≤ 222 ∧ c ≠ 215 := by
      simpa [isUpperA, inR, and_assoc] using h
    rw [lowerC, if_pos h, Bool.eq_iff_iff]
    simp only [isSpaceC, Bool.or_eq_true, beq_iff_eq]
    omega
  · rw [lowerC, if_neg h]

theorem dropWhile_map_lowerC (l : List Nat) :
    (l.map lowerC).dropWhile isSpaceC = (l.dropWhile isSpaceC).map lowerC := by
  induction l with
  | nil => rfl
  | cons c cs ih =>
    simp only [List.map_cons, List.dropWhile_cons, isSpaceC_lowerC]
    by_cases h : isSpaceC c = true
    · simp [h, ih]
    · simp [h]

theorem strip_lowerStr (l : List Nat) : strip (lowerStr l) = lowerStr (strip l) := by
  unfold strip lowerStr
  rw [dropWhile_map_lowerC, ← List.map_reverse, dropWhile_map_lowerC,
    ← List.map_reverse]

theorem knownNameMatches_bounds (reg : List (List Nat)) (t : List Nat)
    (hreg : ∀ n ∈ reg, strip n = n) :
    ∀ sp ∈ knownNameMatches reg t, sp.1 < sp.2.1 ∧ sp.2.1 ≤ t.length := by
  intro sp hsp
  obtain ⟨name, hname, hsp⟩ := List.mem_flatMap.1 hsp
  simp only [scanName] at hsp
  split at hsp
  · simp at hsp
  · split at hsp
    · simp at hsp
    · split at hsp
      · simp at hsp
      · rename_i hcw hlen3
        obtain ⟨q, rfl, hqb⟩ := scanLoop_bounds t (lowerStr t) _ _ _ _ sp hsp
        have hLen : (strip (lowerStr name)).length = name.length := by
          rw [strip_lowerStr, hreg name hname]
          simp [lowerStr]
        have htl : (lowerStr t).length = t.length := by simp [lowerStr]
        constructor
        · simp only
          omega
        · simp only
          omega

/-! ## Bounds survive the merge -/

theorem mergeWalk_within (n : Nat) :
    ∀ (r : List Span) (c : Span),
      (∀ x ∈ c :: r, x.1 < x.2.1 ∧ x.2.1 ≤ n) →
      ∀ y ∈ mergeWalk c r, y.1 < y.2.1 ∧ y.2.1 ≤ n := by
  intro r
  induction r with
  | nil =>
    intro c h y hy
    have : y = c := by simpa [mergeWalk] using hy
    exact this ▸ h c (List.mem_cons_self c [])
  | cons s rest ih =>
    intro c h y hy
    have hc := h c (List.mem_cons_self _ _)
    have hs := h s (List.mem_cons_of_mem _ (List.mem_cons_self _ _))
    simp only [mergeWalk] at hy
    split at hy
    · rename_i h1
      split at hy
      · rename_i h2
        refine ih (c.1, s.2.1, c.2.2) ?_ y hy
        intro x hx
        rcases List.mem_cons.1 hx with rfl | hx
        · exact ⟨by simp only; omega, by simp only; omega⟩
        · exact h x (List.mem_cons_of_mem _ (List.mem_cons_of_mem _ hx))
      · refine ih c ?_ y hy
        intro x hx
        rcases List.mem_cons.1 hx with rfl | hx
        · exact hc
        · exact h x (List.mem_cons_of_mem _ (List.mem_cons_of_mem _ hx))
    · rcases List.mem_cons.1 hy with rfl | hy
      · exact hc
      · refine ih s ?_ y hy
        intro x hx
        rcases List.mem_cons.1 hx with rfl | hx
        · exact hs
        · exact h x (List.mem_cons_of_mem _ (List.mem_cons_of_mem _ hx))

theorem chain'_and_mem {α : Type} {R : α → α → Prop} {Q : α → Prop} :
    ∀ l : List α, l.Chain' R → (∀ x ∈ l, Q x) →
      l.Chain' (fun a b => R a b ∧ Q a ∧ Q b) := by
  intro l
  induction l with
  | nil => intro _ _; simp
  | cons a l ih =>
    intro hch hq
    cases l with
    | nil => simp
    | cons b l' =>
      refine List.chain'_cons.2
        ⟨⟨(List.chain'_cons.1 hch).1, hq a (List.mem_cons_self _ _),
          hq b (List.mem_cons_of_mem _ (List.mem_cons_self _ _))⟩, ?_⟩
      exact ih (List.chain'_cons.1 hch).2
        (fun x hx => hq x (List.mem_cons_of_mem _ hx))

/-! ## Behaviour on empty text -/

theorem patternMatches_nil : patternMatches [] = [] := by
  refine List.eq_nil_iff_forall_not_mem.2 fun sp hsp => ?_
  have h := patternMatches_bounds [] sp hsp
  simp only [List.length_nil] at h
  omega

theorem scanName_nil (name : List Nat) : scanName [] name = [] := by
  simp only [scanName]
  split
  · rfl
  · split
    · rfl
    · split
      · rfl
      · rename_i hlen
        unfold lowerStr at hlen ⊢
        have hsub : findSub ([] : List Nat) (strip (List.map lowerC name)) 1 0 =
            none := by
          simp only [findSub]
          rw [if_neg (by simp only [List.length_nil]; omega)]
        simp [scanLoop, hsub]

theorem knownNameMatches_nil (reg : List (List Nat)) :
    knownNameMatches reg [] = [] := by
  refine List.eq_nil_iff_forall_not_mem.2 fun sp hsp => ?_
  obtain ⟨name, _, hsp⟩ := List.mem_flatMap.1 hsp
  rw [scanName_nil] at hsp
  exact List.not_mem_nil sp hsp

/-! ## Claim C1 -/

/-- The claim of C1 fails as stated, because it quantifies over arbitrary
registry contents: the scan searches for `name.lower().strip()` but builds
the span end with `len(name)`, so the registry entry `"Ann "` (trailing
blank) on the text `"Ann"` yields the span `(0, 4)` whose end exceeds the
text length 3. -/
theorem c1_counterexample :
    find_pii_in_text [s2c "Ann "] (s2c "Ann") = [(0, 4, "known_name")] ∧
      (s2c "Ann").length = 3 := by
  constructor
  · decide
  · decide

/-- Amended C1: for every text and every registry whose entries are
trimmed (as the spec's data model stipulates for `KnownNameSet`),
`find_pii_in_text` returns spans sorted by strictly ascending start, with
each span's start strictly greater than the previous span's end, every
span satisfying `0 ≤ start < end ≤ length text`, and the empty text gives
the empty result. -/
theorem c1_amended_invariants (t : List Nat) (reg : List (List Nat))
    (hreg : ∀ n ∈ reg, strip n = n) :
    (find_pii_in_text reg t).Chain' (fun a b => a.1 < b.1 ∧ a.2.1 < b.1) ∧
    (∀ sp ∈ find_pii_in_text reg t, sp.1 < sp.2.1 ∧ sp.2.1 ≤ t.length) ∧
    (t = [] → find_pii_in_text reg t = []) := by
  have hbounds : ∀ sp ∈ find_pii_in_text reg t,
      sp.1 < sp.2.1 ∧ sp.2.1 ≤ t.length := by
    intro sp hsp
    have hdef : find_pii_in_text reg t =
        match sortSpans (patternMatches t ++ knownNameMatches reg t) with
        | [] => []
        | x :: xs => mergeWalk x xs := rfl
    rw [hdef] at hsp
    cases hs : sortSpans (patternMatches t ++ knownNameMatches reg t) with
    | nil => rw [hs] at hsp; simp at hsp
    | cons x xs =>
      rw [hs] at hsp
      refine mergeWalk_within t.length xs x ?_ sp hsp
      intro y hy
      have hy' : y ∈ patternMatches t ++ knownNameMatches reg t :=
        (sortSpans_perm _).mem_iff.1 (hs ▸ hy)
      rcases List.mem_append.1 hy' with hm | hm
      · exact patternMatches_bounds t y hm
      · exact knownNameMatches_bounds reg t hreg y hm
  refine ⟨?_, hbounds, ?_⟩
  · have hch := merge_chain (patternMatches t ++ knownNameMatches reg t)
    have hall := chain'_and_mem (find_pii_in_text reg t) hch hbounds
    exact hall.imp fun a b hab => ⟨by
      obtain ⟨⟨_, hgap⟩, ⟨ha, _⟩, _⟩ := hab
      omega, hab.1.2⟩
  · intro ht
    subst ht
    show merge_overlapping (patternMatches [] ++ knownNameMatches reg []) = []
    rw [patternMatches_nil, knownNameMatches_nil]
    rfl

/-- Applying the amended C1 to a concrete trimmed registry and text. -/
theorem c1_amended_invariants_witness :
    (∀ n ∈ [s2c "Ann"], strip n = n) ∧
      ((find_pii_in_text [s2c "Ann"] (s2c "hi Ann")).Chain'
          (fun a b => a.1 < b.1 ∧ a.2.1 < b.1) ∧
        (∀ sp ∈ find_pii_in_text [s2c "Ann"] (s2c "hi Ann"),
          sp.1 < sp.2.1 ∧ sp.2.1 ≤ (s2c "hi Ann").length) ∧
        ((s2c "hi Ann") = [] → find_pii_in_text [s2c "Ann"] (s2c "hi Ann") = [])) :=
  ⟨by decide, c1_amended_invariants (s2c "hi Ann") [s2c "Ann"] (by decide)⟩

/-! ## Claims C4, C5, C6, C8: concrete detection behaviour -/

/-- With the registry containing exactly `"Ann"`, the known-name scan of
`find_pii_in_text` rejects the occurrence inside `"Anna"` (word-boundary
guard) but produces a span covering exactly `"Ann"` in
`"Ann, please reply"` and in `"(Ann)"`.  (claim C4) -/
theorem c4_word_boundary :
    knownNameMatches [s2c "Ann"] (s2c "Anna Karenina") = [] ∧
    knownNameMatches [s2c "Ann"] (s2c "Ann, please reply") =
      [(0, 3, "known_name")] ∧
    ((s2c "Ann, please reply").drop 0).take 3 = s2c "Ann" ∧
    knownNameMatches [s2c "Ann"] (s2c "(Ann)") = [(1, 4, "known_name")] ∧
    ((s2c "(Ann)").drop 1).take 3 = s2c "Ann" :=
  ⟨by decide, by decide, by decide, by decide, by decide⟩

/-- With an empty registry, `find_pii_in_text` on
`"contact me at a.b+c@example.co.uk"` returns exactly one span, of
category `email`, covering exactly `a.b+c@example.co.uk` (the overlapping
`url` and `username` matches are absorbed by the merge).  (claim C5) -/
theorem c5_email_detection :
    find_pii_in_text [] (s2c "contact me at a.b+c@example.co.uk") =
      [(14, 33, "email")] ∧
    ((s2c "contact me at a.b+c@example.co.uk").drop 14).take (33 - 14) =
      s2c "a.b+c@example.co.uk" :=
  ⟨by decide, by decide⟩

/-- With an empty registry, `"call +1 (415) 555-2671 now"` yields exactly
one span of category `phone`, while the bare 7-digit `"call 5551234"`
yields no span at all.  (claim C6) -/
theorem c6_phone_detection :
    find_pii_in_text [] (s2c "call +1 (415) 555-2671 now") =
      [(5, 22, "phone")] ∧
    find_pii_in_text [] (s2c "call 5551234") = [] :=
  ⟨by decide, by decide⟩

/-- After `add_known_names(["The Organization"])`, the registry contains
only the full string; neither `"The"` nor `"Organization"` (in any casing,
hence compared through the lowered form) is an element.  (claim C8) -/
theorem c8_stopword_exclusion :
    add_known_names [] [s2c "The Organization"] = [s2c "The Organization"] ∧
    (add_known_names [] [s2c "The Organization"]).all
      (fun x => !(lowerStr x == s2c "the") &&
        !(lowerStr x == s2c "organization")) = true :=
  ⟨by decide, by decide⟩

/-! ## Claim C7: form-field round trip -/

/-- Processing the page text `"First Name: Meryem\nLast Name: Abbad
Andaloussi"` in `redact_page` adds `"Meryem"`, `"Abbad Andaloussi"`,
`"Abbad"` and `"Andaloussi"` to the known-name registry, and afterwards
every bare occurrence of `"Meryem"` (case-insensitive, non-alphanumeric on
both sides) in any later page's text is detected as a `known_name` span.
(claim C7) -/
theorem c7_form_field_roundtrip :
    (s2c "Meryem" ∈ registry_add_from_page []
        (s2c "First Name: Meryem\nLast Name: Abbad Andaloussi") ∧
      s2c "Abbad Andaloussi" ∈ registry_add_from_page []
        (s2c "First Name: Meryem\nLast Name: Abbad Andaloussi") ∧
      s2c "Abbad" ∈ registry_add_from_page []
        (s2c "First Name: Meryem\nLast Name: Abbad Andaloussi") ∧
      s2c "Andaloussi" ∈ registry_add_from_page []
        (s2c "First Name: Meryem\nLast Name: Abbad Andaloussi")) ∧
    ∀ (t : List Nat) (p : Nat),
      (s2c "meryem").isPrefixOf ((lowerStr t).drop p) = true →
      beforeOk t p = true → afterOk t p 6 = true →
      (p, p + 6, "known_name") ∈
        knownNameMatches
          (registry_add_from_page []
            (s2c "First Name: Meryem\nLast Name: Abbad Andaloussi")) t := by
  constructor
  · exact ⟨by decide, by decide, by decide, by decide⟩
  · intro t p hpre hb ha
    have h6 : (s2c "meryem").length = 6 := by decide
    have hplen : p + 6 ≤ (lowerStr t).length := by
      have hle := (List.isPrefixOf_iff_prefix.1 hpre).length_le
      rw [h6, List.length_drop] at hle
      omega
    refine List.mem_flatMap.2 ⟨s2c "Meryem", by decide, ?_⟩
    have hname : scanName t (s2c "Meryem") =
        scanLoop t (lowerStr t) (s2c "meryem") 6 (t.length + 1) 0 := by
      simp only [scanName]
      rw [if_neg (by decide)]
      rw [if_neg (by decide), if_neg (by decide)]
      rw [show strip (lowerStr (s2c "Meryem")) = s2c "meryem" from by decide]
      rw [show (s2c "Meryem").length = 6 from by decide]
    rw [hname]
    refine scanLoop_complete t (lowerStr t) (s2c "meryem") 6 p hpre
      (by rw [h6]; exact hplen) (by rw [hb, ha]; rfl) (t.length + 1) 0
      (Nat.zero_le p) (by simp [lowerStr])

/-- Applying the C7 theorem to the later page text `"Dear Meryem,"` at
offset 5. -/
theorem c7_form_field_roundtrip_witness :
    (5, 11, "known_name") ∈
      knownNameMatches
        (registry_add_from_page []
          (s2c "First Name: Meryem\nLast Name: Abbad Andaloussi"))
        (s2c "Dear Meryem,") :=
  c7_form_field_roundtrip.2 (s2c "Dear Meryem,") 5 (by decide) (by decide)
    (by decide)

/-! ## Claim C9: batch resilience -/

/-- For a batch of three files of which exactly the middle one fails, the
folder loop of `anonymize_folder` catches the failure, processes the
remaining files, returns exactly the two successful output paths, and the
reported count is 2 of 3.  (claim C9) -/
theorem c9_batch_resilience (process : String → Except String String)
    (a b c pa pc e : String) (ha : process a = .ok pa)
    (hb : process b = .error e) (hc : process c = .ok pc) :
    anonymize_folder process [a, b, c] = [pa, pc] ∧
      (anonymize_folder process [a, b, c]).length = 2 ∧
      ([a, b, c] : List String).length = 3 := by
  have h1 : anonymize_folder process [a, b, c] = [pa, pc] := by
    simp [anonymize_folder, List.foldl_cons, List.foldl_nil, ha, hb, hc]
  exact ⟨h1, by rw [h1]; rfl, rfl⟩

/-- Applying the C9 theorem to a concrete fallible per-file routine. -/
theorem c9_batch_resilience_witness :
    anonymize_folder
        (fun f => if f = "bad" then Except.error "broken"
          else Except.ok (f ++ "_redacted"))
        ["a", "bad", "c"] = ["a_redacted", "c_redacted"] ∧
      (anonymize_folder
        (fun f => if f = "bad" then Except.error "broken"
          else Except.ok (f ++ "_redacted"))
        ["a", "bad", "c"]).length = 2 ∧
      (["a", "bad", "c"] : List String).length = 3 :=
  c9_batch_resilience
    (fun f => if f = "bad" then Except.error "broken"
      else Except.ok (f ++ "_redacted"))
    "a" "bad" "c" "a_redacted" "c_redacted" "broken" rfl rfl rfl

end AnonPdf
